import Mathlib

/-!
Shallow embedding of the OpaqueProtocol privacy-pool core
(src/util/crypto.ts, src/util/merkle.ts, src/util/zkproof.ts,
src/util/privacyPool.ts).

Field elements and JavaScript bigints are modelled as `Nat`.  The
two-or-fewer-input Poseidon primitive (circomlibjs `poseidon`) is an
external library; every definition is parametrised over it as
`P : List Nat → Nat` (it is only ever applied to lists of length 1 or 2).
32-byte buffers are modelled as `List Nat` of byte values.
-/

namespace PoolSpec

/-- BN254 scalar field modulus, from crypto.ts `SNARK_SCALAR_FIELD`. -/
def SNARK_SCALAR_FIELD : Nat :=
  21888242871839275222246405745257275088548364400416034343698204186575808495617

/-- crypto.ts `FIXED_AMOUNT_STROOPS`. -/
def FIXED_AMOUNT_STROOPS : Nat := 1000000000

/-- merkle.ts `TREE_DEPTH` ("Reduced from 20 to fit Soroban budget"). -/
def TREE_DEPTH : Nat := 8

/-- The sequential loop of crypto.ts `poseidonHash` for more than two
inputs: `result = poseidonHash([result, inputs[i]])` for `i = 2, ...`.
Each recursive `poseidonHash` call there receives a two-element list and
therefore reduces to the primitive `P`. -/
def poseidonFold (P : List Nat → Nat) : Nat → List Nat → Nat
  | h, [] => h
  | h, x :: rest => poseidonFold P (P [h, x]) rest

/-- crypto.ts `poseidonHash`: for more than 2 inputs, fold left-to-right
with the 2-input primitive starting from `P [inputs[0], inputs[1]]`;
for 1 or 2 inputs, call the primitive directly. -/
def poseidonHash (P : List Nat → Nat) (inputs : List Nat) : Nat :=
  if 2 < inputs.length then
    match inputs with
    | a :: b :: rest => poseidonFold P (P [a, b]) rest
    | _ => P inputs
  else P inputs

theorem poseidonHash_pair (P : List Nat → Nat) (a b : Nat) :
    poseidonHash P [a, b] = P [a, b] := rfl

/-- merkle.ts `initializeZeroValues`: `Zero[0] = 0`,
`Zero[i] = Poseidon(Zero[i-1], Zero[i-1])`. -/
def zeros (P : List Nat → Nat) : Nat → Nat
  | 0 => 0
  | i + 1 => poseidonHash P [zeros P i, zeros P i]

/-- One bottom-up layer step shared by `computeRoot` and `getMerklePath`
(merkle.ts lines 104-109 and 156-162): pair adjacent nodes, the right
node of an odd tail being the zero value `z` of the current level. -/
def hashLayer (P : List Nat → Nat) (z : Nat) : List Nat → List Nat
  | [] => []
  | [a] => [poseidonHash P [a, z]]
  | a :: b :: rest => poseidonHash P [a, b] :: hashLayer P z rest

theorem hashLayer_length (P : List Nat → Nat) (z : Nat) :
    ∀ l : List Nat, (hashLayer P z l).length = (l.length + 1) / 2
  | [] => rfl
  | [_] => by simp [hashLayer]
  | _ :: _ :: rest => by
    simp only [hashLayer, List.length_cons, hashLayer_length P z rest]
    omega

theorem hashLayer_ne_nil (P : List Nat → Nat) (z : Nat) (l : List Nat)
    (h : l ≠ []) : hashLayer P z l ≠ [] := by
  match l with
  | [] => exact absurd rfl h
  | [a] => simp [hashLayer]
  | a :: b :: rest => simp [hashLayer]

/-- The `while` loop of merkle.ts `computeRoot` (lines 100-122): keep
hashing layers while `currentLayer.length > 1 || level < depth`; an
empty next layer is padded with the current level's zero value; the
mid-loop `break` re-checks the same condition. `headD 0` models the
final `currentLayer[0]` (never out of range for a nonempty start). -/
def computeRootLoop (P : List Nat → Nat) (depth : Nat)
    (layer : List Nat) (level : Nat) : Nat :=
  if 1 < layer.length ∨ level < depth then
    let z := zeros P level
    let next := hashLayer P z layer
    let next' := if next.isEmpty then [z] else next
    computeRootLoop P depth next' (level + 1)
  else layer.headD 0
termination_by 2 * (depth - level) + layer.length
decreasing_by
  have hlen := hashLayer_length P (zeros P level) layer
  simp only [List.isEmpty_eq_true]
  split
  · rename_i hnil
    rw [hnil] at hlen
    simp only [List.length_nil, List.length_cons] at hlen ⊢
    omega
  · omega

/-- merkle.ts `computeRoot`: zero hash at `depth` for an empty tree,
otherwise the layered loop starting at the leaves. -/
def computeRoot (P : List Nat → Nat) (depth : Nat) (leaves : List Nat) : Nat :=
  if leaves.isEmpty then zeros P depth
  else computeRootLoop P depth leaves 0

/-- The `for` loop of merkle.ts `getMerklePath` (lines 143-171), first
argument is the number of remaining levels (`depth - level`).  The
sibling is the entry at the paired index when in range and `zeros[level]`
otherwise (`List.getD` with default `z` is exactly that branch); an empty
next layer is padded with `zeros[level + 1]`. -/
def getMerklePathLoop (P : List Nat → Nat) :
    Nat → List Nat → Nat → Nat → List Nat
  | 0, _, _, _ => []
  | remaining + 1, layer, idx, level =>
    let z := zeros P level
    let siblingIndex := if idx % 2 = 0 then idx + 1 else idx - 1
    let sib := layer.getD siblingIndex z
    let next := hashLayer P z layer
    let next' := if next.isEmpty then [zeros P (level + 1)] else next
    sib :: getMerklePathLoop P remaining next' (idx / 2) (level + 1)

/-- merkle.ts `getMerklePath`: throws (`none`) on an out-of-range leaf
index, otherwise collects one sibling per level from 0 to depth-1. -/
def getMerklePath (P : List Nat → Nat) (depth : Nat) (leaves : List Nat)
    (leafIndex : Nat) : Option (List Nat) :=
  if leafIndex < leaves.length then
    some (getMerklePathLoop P depth leaves leafIndex 0)
  else none

/-- The recomputation loop of merkle.ts `verifyProof` (lines 192-203):
hash with the sibling on the right when the running index is even, on
the left when odd, halving the index each level.  The loop runs once per
sibling (their count is checked against the depth by the caller). -/
def verifyPathFold (P : List Nat → Nat) : List Nat → Nat → Nat → Nat
  | [], _, h => h
  | s :: rest, idx, h =>
    verifyPathFold P rest (idx / 2)
      (if idx % 2 = 0 then poseidonHash P [h, s] else poseidonHash P [s, h])

/-- merkle.ts `verifyProof`: `false` when the sibling count differs from
the tree depth, otherwise compare the recomputed root with `root`. -/
def verifyProof (P : List Nat → Nat) (depth : Nat) (leaf leafIndex : Nat)
    (siblings : List Nat) (root : Nat) : Bool :=
  if siblings.length ≠ depth then false
  else verifyPathFold P siblings leafIndex leaf == root

instance instDecEqExcept {ε α : Type} [DecidableEq ε] [DecidableEq α] :
    DecidableEq (Except ε α)
  | .ok a, .ok b =>
    if h : a = b then .isTrue (by rw [h])
    else .isFalse (by intro he; cases he; exact h rfl)
  | .ok _, .error _ => .isFalse (by intro he; cases he)
  | .error _, .ok _ => .isFalse (by intro he; cases he)
  | .error e, .error f =>
    if h : e = f then .isTrue (by rw [h])
    else .isFalse (by intro he; cases he; exact h rfl)

/-- merkle.ts `addLeaf` mutates `this.leaves` and returns the new index;
the throw happens before the push, so on error the leaves are unchanged. -/
structure AddLeafResult where
  leaves : List Nat
  result : Except String Nat
deriving DecidableEq

/-- merkle.ts `addLeaf`: `index = leaves.length`; throw `Tree at
capacity` when `index >= 2 ** depth`, else append and return `index`. -/
def addLeaf (depth : Nat) (leaves : List Nat) (leaf : Nat) : AddLeafResult :=
  if 2 ^ depth ≤ leaves.length then
    { leaves := leaves, result := .error "Tree at capacity" }
  else
    { leaves := leaves ++ [leaf], result := .ok leaves.length }

/-- A sequence of `addLeaf` calls on one tree, stopping at the first
error (models building a tree by repeated inserts). -/
def insertAll (depth : Nat) : List Nat → List Nat → Except String (List Nat)
  | leaves, [] => .ok leaves
  | leaves, x :: xs =>
    let r := addLeaf depth leaves x
    match r.result with
    | .error e => .error e
    | .ok _ => insertAll depth r.leaves xs

/-- A concrete stand-in for the Poseidon primitive, used only to
instantiate witnesses on explicit inputs. -/
def testHash : List Nat → Nat
  | [a] => a + 1
  | [a, b] => 2 * a + 3 * b + 1
  | _ => 0

/-- Modelled from the spec: the reference full-tree hash.  A height-`r`
subtree over a prefix `l` of leaves sitting above base level `level` is
hashed top-down: split at `2 ^ (r - 1)`, hash both halves, missing
subtrees being the precomputed zero hashes (a height-0 node over no
leaf is `zeros[level]`, i.e. the spec's padding with zero subtrees, not
duplication). -/
def refRootAux (P : List Nat → Nat) (level : Nat) : Nat → List Nat → Nat
  | 0, l => l.headD (zeros P level)
  | r + 1, l =>
    poseidonHash P
      [refRootAux P level r (l.take (2 ^ r)), refRootAux P level r (l.drop (2 ^ r))]

/-- Modelled from the spec: "the root computed by a reference full-tree
hash over `n` leaves padded with `zero` subtrees". -/
def refRoot (P : List Nat → Nat) (depth : Nat) (leaves : List Nat) : Nat :=
  refRootAux P 0 depth leaves

theorem getD_default_irrel (l : List Nat) :
    ∀ (i : Nat), i < l.length → ∀ d d' : Nat, l.getD i d = l.getD i d' := by
  induction l with
  | nil => intro i h; simp at h
  | cons a t ih =>
    intro i h d d'
    cases i with
    | zero => simp
    | succ j =>
      simp only [List.getD_cons_succ]
      exact ih j (by simpa using h) d d'

theorem hashLayer_take (P : List Nat → Nat) (z : Nat) :
    ∀ (k : Nat) (l : List Nat),
      hashLayer P z (l.take (2 * k)) = (hashLayer P z l).take k
  | 0, l => by simp [hashLayer]
  | k + 1, [] => by simp [hashLayer]
  | k + 1, [a] => by
    have h2 : 2 * (k + 1) = 2 * k + 1 + 1 := by omega
    simp [h2, hashLayer]
  | k + 1, a :: b :: rest => by
    have h2 : 2 * (k + 1) = 2 * k + 1 + 1 := by omega
    rw [h2, List.take_succ_cons, List.take_succ_cons]
    simp only [hashLayer, List.take_succ_cons, hashLayer_take P z k rest]

theorem hashLayer_drop (P : List Nat → Nat) (z : Nat) :
    ∀ (k : Nat) (l : List Nat),
      hashLayer P z (l.drop (2 * k)) = (hashLayer P z l).drop k
  | 0, l => by simp
  | k + 1, [] => by simp [hashLayer]
  | k + 1, [a] => by
    have h2 : 2 * (k + 1) = 2 * k + 1 + 1 := by omega
    simp [h2, hashLayer]
  | k + 1, a :: b :: rest => by
    have h2 : 2 * (k + 1) = 2 * k + 1 + 1 := by omega
    rw [h2, List.drop_succ_cons, List.drop_succ_cons]
    simp only [hashLayer, List.drop_succ_cons, hashLayer_drop P z k rest]

theorem refRootAux_nil (P : List Nat → Nat) :
    ∀ (r level : Nat), refRootAux P level r [] = zeros P (level + r)
  | 0, level => by simp [refRootAux]
  | r + 1, level => by
    show refRootAux P level (r + 1) [] = zeros P (level + r + 1)
    simp only [refRootAux, List.take_nil, List.drop_nil,
      refRootAux_nil P r level, zeros]

/-- Hashing one layer bottom-up agrees with raising the base level of the
top-down reference hash by one: the bridge between the source's layered
loop and the spec's recursive full tree. -/
theorem take_one_cons (a : Nat) (t : List Nat) : (a :: t).take 1 = [a] := rfl

theorem drop_one_cons (a : Nat) (t : List Nat) : (a :: t).drop 1 = t := rfl

theorem refRootAux_step (P : List Nat → Nat) :
    ∀ (r level : Nat) (l : List Nat),
      refRootAux P level (r + 1) l
        = refRootAux P (level + 1) r (hashLayer P (zeros P level) l)
  | 0, level, l => by
    cases l with
    | nil => simp [refRootAux, hashLayer, zeros]
    | cons a t =>
      cases t with
      | nil => simp [refRootAux, hashLayer, take_one_cons, drop_one_cons]
      | cons b t' => simp [refRootAux, hashLayer, take_one_cons, drop_one_cons]
  | r + 1, level, l => by
    have h2 : 2 ^ (r + 1) = 2 * 2 ^ r := by rw [pow_succ]; ring
    show poseidonHash P [refRootAux P level (r + 1) (l.take (2 ^ (r + 1))),
        refRootAux P level (r + 1) (l.drop (2 ^ (r + 1)))] = _
    rw [refRootAux_step P r level (l.take (2 ^ (r + 1))),
      refRootAux_step P r level (l.drop (2 ^ (r + 1))), h2,
      hashLayer_take, hashLayer_drop]
    rfl

theorem hashLayer_isEmpty_false (P : List Nat → Nat) (z : Nat)
    (l : List Nat) (h : l ≠ []) : (hashLayer P z l).isEmpty = false := by
  cases hl : hashLayer P z l with
  | nil => exact absurd hl (hashLayer_ne_nil P z l h)
  | cons x t => simp

/-- The source's `computeRoot` layer loop computes the spec's reference
full-tree hash, for a nonempty leaf layer within capacity. -/
theorem computeRootLoop_ref (P : List Nat → Nat) (depth : Nat) :
    ∀ (r level : Nat) (layer : List Nat), level + r = depth → layer ≠ [] →
      layer.length ≤ 2 ^ r →
      computeRootLoop P depth layer level = refRootAux P level r layer
  | 0, level, layer, hlvl, hne, hlen => by
    cases layer with
    | nil => exact absurd rfl hne
    | cons a t =>
      cases t with
      | nil =>
        rw [computeRootLoop.eq_def]
        have : ¬(1 < ([a] : List Nat).length ∨ level < depth) := by
          simp; omega
        rw [if_neg this]
        simp [refRootAux]
      | cons b t' => simp at hlen
  | r + 1, level, layer, hlvl, hne, hlen => by
    rw [computeRootLoop.eq_def]
    have hcond : 1 < layer.length ∨ level < depth := Or.inr (by omega)
    rw [if_pos hcond]
    simp only [hashLayer_isEmpty_false P (zeros P level) layer hne,
      Bool.false_eq_true, if_false]
    rw [computeRootLoop_ref P depth r (level + 1)
        (hashLayer P (zeros P level) layer) (by omega)
        (hashLayer_ne_nil P (zeros P level) layer hne)
        (by
          have := hashLayer_length P (zeros P level) layer
          have h2 : 2 ^ (r + 1) = 2 * 2 ^ r := by rw [pow_succ]; ring
          omega)]
    exact (refRootAux_step P r level layer).symm

/-- Where each parent lands in a hashed layer: entry `idx / 2` of
`hashLayer` is the hash of the pair containing entry `idx`, the right
slot defaulting to the zero value when past the end. -/
theorem hashLayer_getD (P : List Nat → Nat) (z : Nat) :
    ∀ (l : List Nat) (idx : Nat), idx < l.length →
      (hashLayer P z l).getD (idx / 2) 0 =
        if idx % 2 = 0 then poseidonHash P [l.getD idx 0, l.getD (idx + 1) z]
        else poseidonHash P [l.getD (idx - 1) 0, l.getD idx 0]
  | [], idx, h => by simp at h
  | [a], idx, h => by
    have : idx = 0 := by simp at h; omega
    subst this
    simp [hashLayer]
  | a :: b :: rest, idx, h => by
    match idx with
    | 0 => simp [hashLayer]
    | 1 => simp [hashLayer]
    | n + 2 =>
      have hn : n < rest.length := by simp at h; omega
      have hdiv : (n + 2) / 2 = n / 2 + 1 := by omega
      have hmod : (n + 2) % 2 = n % 2 := by omega
      rw [hdiv, hmod]
      simp only [hashLayer, List.getD_cons_succ]
      rw [hashLayer_getD P z rest n hn]
      by_cases he : n % 2 = 0
      · simp [he]
      · have hn1 : 1 ≤ n := by omega
        have : n + 2 - 1 = n - 1 + 2 := by omega
        simp only [he, if_false]
        rw [this]
        simp only [List.getD_cons_succ]

theorem getMerklePathLoop_length (P : List Nat → Nat) :
    ∀ (r : Nat) (layer : List Nat) (idx level : Nat),
      (getMerklePathLoop P r layer idx level).length = r
  | 0, _, _, _ => rfl
  | r + 1, layer, idx, level => by
    simp only [getMerklePathLoop, List.length_cons]
    rw [getMerklePathLoop_length P r]

/-- Folding the sibling path produced by `getMerklePath` from a leaf
reproduces the reference root of the layer. -/
theorem pathLoop_verify (P : List Nat → Nat) :
    ∀ (r level : Nat) (layer : List Nat) (idx : Nat),
      idx < layer.length → layer.length ≤ 2 ^ r →
      verifyPathFold P (getMerklePathLoop P r layer idx level) idx
          (layer.getD idx 0)
        = refRootAux P level r layer
  | 0, level, layer, idx, hidx, hlen => by
    cases layer with
    | nil => simp at hidx
    | cons a t =>
      cases t with
      | nil =>
        have : idx = 0 := by simp at hidx; omega
        subst this
        simp [getMerklePathLoop, verifyPathFold, refRootAux]
      | cons b t' => simp at hlen
  | r + 1, level, layer, idx, hidx, hlen => by
    have hne : layer ≠ [] := by
      cases layer with
      | nil => simp at hidx
      | cons a t => simp
    have hlay := hashLayer_length P (zeros P level) layer
    have h2 : 2 ^ (r + 1) = 2 * 2 ^ r := by rw [pow_succ]; ring
    simp only [getMerklePathLoop,
      hashLayer_isEmpty_false P (zeros P level) layer hne,
      Bool.false_eq_true, if_false, verifyPathFold]
    have hstep :
        (if idx % 2 = 0
          then poseidonHash P
            [layer.getD idx 0,
             layer.getD (if idx % 2 = 0 then idx + 1 else idx - 1) (zeros P level)]
          else poseidonHash P
            [layer.getD (if idx % 2 = 0 then idx + 1 else idx - 1) (zeros P level),
             layer.getD idx 0])
        = (hashLayer P (zeros P level) layer).getD (idx / 2) 0 := by
      rw [hashLayer_getD P (zeros P level) layer idx hidx]
      by_cases he : idx % 2 = 0
      · simp [he]
      · have h1 : 1 ≤ idx := by omega
        have hlt : idx - 1 < layer.length := by omega
        simp only [he, if_false]
        rw [getD_default_irrel layer (idx - 1) hlt (zeros P level) 0]
    rw [hstep]
    rw [pathLoop_verify P r (level + 1) (hashLayer P (zeros P level) layer)
      (idx / 2) (by omega) (by omega)]
    exact (refRootAux_step P r level layer).symm

/-- Building a tree from scratch by repeated `addLeaf` yields exactly the
inserted sequence, within capacity. -/
theorem insertAll_ok (depth : Nat) :
    ∀ (xs acc l : List Nat), insertAll depth acc xs = .ok l →
      acc.length ≤ 2 ^ depth → l = acc ++ xs ∧ l.length ≤ 2 ^ depth
  | [], acc, l, h, hcap => by
    simp only [insertAll] at h
    cases h
    exact ⟨by simp, hcap⟩
  | x :: xs, acc, l, h, hcap => by
    simp only [insertAll, addLeaf] at h
    by_cases hfull : 2 ^ depth ≤ acc.length
    · rw [if_pos hfull] at h
      simp at h
    · rw [if_neg hfull] at h
      simp only at h
      have := insertAll_ok depth xs (acc ++ [x]) l h (by simp; omega)
      refine ⟨?_, this.2⟩
      rw [this.1]
      simp

/-- crypto.ts `computeCommitment`:
`commitment = Poseidon(Poseidon(value, label), Poseidon(nullifier, secret))`,
computed as `precommitment`, then `hashValueLabel`, then their hash. -/
def computeCommitment (P : List Nat → Nat)
    (value label nullifier secret : Nat) : Nat :=
  let precommitment := poseidonHash P [nullifier, secret]
  let hashValueLabel := poseidonHash P [value, label]
  poseidonHash P [hashValueLabel, precommitment]

/-- crypto.ts `computeNullifierHash`: `Poseidon(nullifier)`. -/
def computeNullifierHash (P : List Nat → Nat) (nullifier : Nat) : Nat :=
  poseidonHash P [nullifier]

theorem poseidonFold_eq_foldl (P : List Nat → Nat) :
    ∀ (l : List Nat) (h : Nat),
      poseidonFold P h l = l.foldl (fun acc x => P [acc, x]) h
  | [], h => rfl
  | x :: rest, h => by
    simp only [poseidonFold, List.foldl_cons]
    exact poseidonFold_eq_foldl P rest (P [h, x])

/-- C1: for every depth `d ≥ 1`, every tree built by at most `2 ^ d`
successful `addLeaf` inserts, and every leaf index `i` in range, the
path produced by `getMerklePath i` verifies against the computed root:
`verifyProof (leaves[i], i, getMerklePath i, computeRoot ())` is true. -/
theorem verify_own_path (P : List Nat → Nat) (d : Nat) (_hd : 1 ≤ d)
    (input leaves : List Nat) (hins : insertAll d [] input = .ok leaves)
    (i : Nat) (hi : i < leaves.length) (path : List Nat)
    (hpath : getMerklePath P d leaves i = some path) :
    verifyProof P d (leaves.getD i 0) i path (computeRoot P d leaves) = true := by
  obtain ⟨-, hlen⟩ := insertAll_ok d input [] leaves hins (by simp)
  have hne : leaves ≠ [] := by
    intro h
    rw [h] at hi
    simp at hi
  have hpath' : path = getMerklePathLoop P d leaves i 0 := by
    rw [getMerklePath, if_pos hi] at hpath
    exact (Option.some_inj.mp hpath).symm
  subst hpath'
  rw [verifyProof, if_neg (by rw [getMerklePathLoop_length]; omega)]
  have hemp : leaves.isEmpty = false := by
    cases leaves with
    | nil => exact absurd rfl hne
    | cons a t => simp
  rw [computeRoot, hemp]
  simp only [Bool.false_eq_true, if_false]
  rw [computeRootLoop_ref P d d 0 leaves (Nat.zero_add d) hne hlen]
  rw [pathLoop_verify P d 0 leaves i hi hlen]
  simp

/-- Witness for C1: depth 2, leaves 5, 7, 9 inserted via `addLeaf`,
index 1, under the concrete hash `testHash`. -/
theorem verify_own_path_witness :
    verifyProof testHash 2 ([5, 7, 9].getD 1 0) 1 [5, 19]
      (computeRoot testHash 2 [5, 7, 9]) = true :=
  verify_own_path testHash 2 (by decide) [5, 7, 9] [5, 7, 9] (by decide) 1
    (by decide) [5, 19] (by decide)

/-- C2: for every depth and every leaf count within capacity,
`computeRoot` after sequential inserts equals the reference full-tree
hash over the leaves padded with zero subtrees; in particular the empty
depth-3 tree has root `zero[3]`, after inserting 5 the root is
`H(H(H(5, zero[0]), zero[1]), zero[2])`, and after also inserting 7 it
is `H(H(H(5, 7), zero[1]), zero[2])`. -/
theorem computeRoot_eq_refRoot :
    (∀ (P : List Nat → Nat) (d : Nat) (leaves : List Nat),
        leaves.length ≤ 2 ^ d → computeRoot P d leaves = refRoot P d leaves)
    ∧ (∀ P : List Nat → Nat, computeRoot P 3 [] = zeros P 3)
    ∧ (∀ P : List Nat → Nat, computeRoot P 3 [5]
        = poseidonHash P [poseidonHash P [poseidonHash P [5, zeros P 0],
            zeros P 1], zeros P 2])
    ∧ (∀ P : List Nat → Nat, computeRoot P 3 [5, 7]
        = poseidonHash P [poseidonHash P [poseidonHash P [5, 7],
            zeros P 1], zeros P 2]) := by
  have hmain : ∀ (P : List Nat → Nat) (d : Nat) (leaves : List Nat),
      leaves.length ≤ 2 ^ d → computeRoot P d leaves = refRoot P d leaves := by
    intro P d leaves hlen
    by_cases hne : leaves = []
    · subst hne
      show zeros P d = refRootAux P 0 d []
      rw [refRootAux_nil, Nat.zero_add]
    · have hemp : leaves.isEmpty = false := by
        cases leaves with
        | nil => exact absurd rfl hne
        | cons a t => simp
      rw [computeRoot, hemp]
      simp only [Bool.false_eq_true, if_false]
      exact computeRootLoop_ref P d d 0 leaves (Nat.zero_add d) hne hlen
  refine ⟨hmain, fun P => rfl, fun P => ?_, fun P => ?_⟩
  · rw [hmain P 3 [5] (by simp)]
    rfl
  · rw [hmain P 3 [5, 7] (by simp)]
    rfl

/-- Witness for C2: depth 3, leaves 5 and 7, under `testHash`
(`refRoot testHash 3 [5, 7]` evaluates to 155). -/
theorem computeRoot_eq_refRoot_witness :
    computeRoot testHash 3 [5, 7] = refRoot testHash 3 [5, 7]
      ∧ refRoot testHash 3 [5, 7] = 155 :=
  ⟨computeRoot_eq_refRoot.1 testHash 3 [5, 7] (by decide), by decide⟩

/-- C3: `computeCommitment` returns
`H(H(value, label), H(nullifier, secret))` for the two-input primitive
`H`, and is a pure deterministic function: equal inputs give equal
commitments. -/
theorem computeCommitment_formula :
    (∀ (P : List Nat → Nat) (value label nullifier secret : Nat),
        computeCommitment P value label nullifier secret
          = P [P [value, label], P [nullifier, secret]])
    ∧ (∀ (P : List Nat → Nat) (v l n s v' l' n' s' : Nat),
        v = v' → l = l' → n = n' → s = s' →
        computeCommitment P v l n s = computeCommitment P v' l' n' s') := by
  constructor
  · intro P value label nullifier secret
    rfl
  · intro P v l n s v' l' n' s' hv hl hn hs
    rw [hv, hl, hn, hs]

/-- Witness for C3 at inputs 1, 2, 3, 4 under `testHash`. -/
theorem computeCommitment_formula_witness :
    computeCommitment testHash 1 2 3 4
        = testHash [testHash [1, 2], testHash [3, 4]]
      ∧ computeCommitment testHash 1 2 3 4 = computeCommitment testHash 1 2 3 4 :=
  ⟨computeCommitment_formula.1 testHash 1 2 3 4,
   computeCommitment_formula.2 testHash 1 2 3 4 1 2 3 4 rfl rfl rfl rfl⟩

/-- C4: for more than two inputs, `poseidonHash` is the left-to-right
fold of the two-input primitive: starting from `H(in[0], in[1])`, it
hashes `h = H(h, in[i])` for `i = 2, ..., n-1`. -/
theorem poseidonHash_left_fold (P : List Nat → Nat) :
    ∀ (inputs : List Nat), 2 < inputs.length →
      poseidonHash P inputs
        = (inputs.drop 2).foldl (fun acc x => P [acc, x])
            (P [inputs.getD 0 0, inputs.getD 1 0])
  | [], h => by simp at h
  | [a], h => by simp at h
  | [a, b], h => by simp at h
  | a :: b :: c :: rest, h => by
    rw [poseidonHash, if_pos h]
    simp only [List.getD_cons_zero, List.getD_cons_succ, List.drop_succ_cons,
      List.drop_zero]
    exact poseidonFold_eq_foldl P (c :: rest) (P [a, b])

/-- Witness for C4 at inputs 1, 2, 3, 4 under `testHash`. -/
theorem poseidonHash_left_fold_witness :
    poseidonHash testHash [1, 2, 3, 4]
      = ([1, 2, 3, 4].drop 2).foldl (fun acc x => testHash [acc, x])
          (testHash [[1, 2, 3, 4].getD 0 0, [1, 2, 3, 4].getD 1 0]) :=
  poseidonHash_left_fold testHash [1, 2, 3, 4] (by decide)

/-- C5: `addLeaf` returns the 0-based insertion-order index (the leaf
count before the insert) when below capacity; it fails with the
`Tree at capacity` error exactly when the new index would be
`≥ 2 ^ depth`, and on that error the leaf sequence is unchanged. -/
theorem addLeaf_spec :
    (∀ (d : Nat) (leaves : List Nat) (leaf : Nat), leaves.length < 2 ^ d →
        addLeaf d leaves leaf
          = { leaves := leaves ++ [leaf], result := .ok leaves.length })
    ∧ (∀ (d : Nat) (leaves : List Nat) (leaf : Nat),
        ((addLeaf d leaves leaf).result = .error "Tree at capacity")
          ↔ 2 ^ d ≤ leaves.length)
    ∧ (∀ (d : Nat) (leaves : List Nat) (leaf : Nat), 2 ^ d ≤ leaves.length →
        (addLeaf d leaves leaf).leaves = leaves) := by
  refine ⟨?_, ?_, ?_⟩
  · intro d leaves leaf h
    rw [addLeaf, if_neg (by omega)]
  · intro d leaves leaf
    constructor
    · intro h
      by_cases hc : 2 ^ d ≤ leaves.length
      · exact hc
      · rw [addLeaf, if_neg hc] at h
        simp at h
    · intro hc
      rw [addLeaf, if_pos hc]
  · intro d leaves leaf hc
    rw [addLeaf, if_pos hc]

/-- Witness for C5: a depth-2 tree with two leaves accepts a third at
index 2; a depth-1 tree with two leaves rejects it and keeps its
leaves. -/
theorem addLeaf_spec_witness :
    addLeaf 2 [1, 2] 9 = { leaves := [1, 2, 9], result := .ok 2 }
      ∧ ((addLeaf 1 [1, 2] 9).result = .error "Tree at capacity")
      ∧ (addLeaf 1 [1, 2] 9).leaves = [1, 2] :=
  ⟨addLeaf_spec.1 2 [1, 2] 9 (by decide),
   (addLeaf_spec.2.1 1 [1, 2] 9).2 (by decide),
   addLeaf_spec.2.2 1 [1, 2] 9 (by decide)⟩

/-- Big-endian byte encoding truncated to `k` bytes: the high bits past
`k` bytes are dropped, exactly as `DataView.setUint32` truncates to 32
bits. -/
def toBytesBE : Nat → Nat → List Nat
  | 0, _ => []
  | k + 1, n => toBytesBE k (n / 256) ++ [n % 256]

/-- Big-endian byte decoding (for stating round-trip facts). -/
def fromBytesBE (l : List Nat) : Nat :=
  l.foldl (fun acc b => 256 * acc + b) 0

/-- zkproof.ts `fieldElementToBytes` takes the first 64 characters of
`bi.toString(16).padStart(64, '0')` as 32 byte pairs: for values with
more than 64 hex digits this keeps the most significant 64 digits,
i.e. divides by 16 until the value fits. -/
@[irreducible] def hexTrunc (v : Nat) : Nat :=
  if v < 2 ^ 256 then v else hexTrunc (v / 16)
termination_by v
decreasing_by
  exact Nat.div_lt_self (by omega) (by omega)

/-- zkproof.ts `fieldElementToBytes`: 32 big-endian bytes of the value
(no modular reduction is performed anywhere in the function). -/
def fieldElementToBytes (value : Nat) : List Nat :=
  toBytesBE 32 (hexTrunc value)

/-- snarkjs Groth16 proof points, as consumed by the serializer
(coordinate strings modelled as the numbers they denote; the unused
projective third coordinates are carried along). -/
structure Groth16Proof where
  pi_a : Nat × Nat × Nat
  pi_b : (Nat × Nat) × (Nat × Nat) × (Nat × Nat)
  pi_c : Nat × Nat × Nat
deriving DecidableEq

/-- zkproof.ts `g1PointToBytes`: x then y, 32 bytes each. -/
def g1PointToBytes (p : Nat × Nat × Nat) : List Nat :=
  fieldElementToBytes p.1 ++ fieldElementToBytes p.2.1

/-- zkproof.ts `g2PointToBytes`: x0, x1, y0, y1, 32 bytes each. -/
def g2PointToBytes (p : (Nat × Nat) × (Nat × Nat) × (Nat × Nat)) : List Nat :=
  fieldElementToBytes p.1.1 ++ fieldElementToBytes p.1.2
    ++ fieldElementToBytes p.2.1.1 ++ fieldElementToBytes p.2.1.2

/-- zkproof.ts `serializeProofForSoroban`: `A (64) ‖ B (128) ‖ C (64)`. -/
def serializeProofForSoroban (pr : Groth16Proof) : List Nat :=
  g1PointToBytes pr.pi_a ++ g2PointToBytes pr.pi_b ++ g1PointToBytes pr.pi_c

/-- Concatenation of per-signal byte blocks (the serializer's write
loop). -/
def concatBytes : List (List Nat) → List Nat
  | [] => []
  | x :: xs => x ++ concatBytes xs

/-- zkproof.ts `serializePublicSignalsForSoroban`: u32 big-endian length
prefix, then 32 bytes per signal. -/
def serializePublicSignalsForSoroban (signals : List Nat) : List Nat :=
  toBytesBE 4 signals.length ++ concatBytes (signals.map fieldElementToBytes)

theorem hexTrunc_of_lt {v : Nat} (h : v < 2 ^ 256) : hexTrunc v = v := by
  rw [hexTrunc.eq_def, if_pos h]

theorem fromBytesBE_append_single (l : List Nat) (b : Nat) :
    fromBytesBE (l ++ [b]) = 256 * fromBytesBE l + b := by
  simp [fromBytesBE, List.foldl_append]

theorem fromBytesBE_toBytesBE :
    ∀ (k n : Nat), n < 2 ^ (8 * k) → fromBytesBE (toBytesBE k n) = n
  | 0, n, h => by
    have : n = 0 := by simpa using h
    subst this
    rfl
  | k + 1, n, h => by
    have hpow : 2 ^ (8 * (k + 1)) = 2 ^ (8 * k) * 256 := by
      have : 8 * (k + 1) = 8 * k + 8 := by omega
      rw [this, pow_add]
      norm_num
    rw [toBytesBE, fromBytesBE_append_single,
      fromBytesBE_toBytesBE k (n / 256) (by omega)]
    omega

/-- C6 counterexample: at the field modulus itself (a value the claim
quantifies over), `fieldElementToBytes` emits the unreduced value: the
bytes differ from the big-endian encoding of `value mod p`, decode back
to `p` itself (out of `[0, p)`), and the public-signal serializer embeds
those same out-of-range bytes. -/
theorem fieldElementToBytes_unreduced_cex :
    fieldElementToBytes SNARK_SCALAR_FIELD
        ≠ toBytesBE 32 (SNARK_SCALAR_FIELD % SNARK_SCALAR_FIELD)
      ∧ fromBytesBE (fieldElementToBytes SNARK_SCALAR_FIELD) = SNARK_SCALAR_FIELD
      ∧ serializePublicSignalsForSoroban [SNARK_SCALAR_FIELD]
          ≠ toBytesBE 4 1
              ++ toBytesBE 32 (SNARK_SCALAR_FIELD % SNARK_SCALAR_FIELD) := by
  have hlt : SNARK_SCALAR_FIELD < 2 ^ 256 := by decide
  have h := hexTrunc_of_lt hlt
  refine ⟨?_, ?_, ?_⟩
  · simp only [fieldElementToBytes, h]
    decide
  · simp only [fieldElementToBytes, h]
    decide
  · simp only [serializePublicSignalsForSoroban, List.map, concatBytes,
      fieldElementToBytes, h]
    decide

/-- C6 amended (the code performs no modular reduction): for every value
below `2 ^ 256` the emitted 32-byte word is the big-endian encoding of
the value itself, so any value in `[p, 2 ^ 256)` is emitted out of field
range; the public-signal serializer embeds exactly those raw words. -/
theorem serializers_emit_raw_value :
    (∀ v : Nat, v < 2 ^ 256 →
        fieldElementToBytes v = toBytesBE 32 v
          ∧ fromBytesBE (fieldElementToBytes v) = v)
    ∧ (∀ signals : List Nat, (∀ s ∈ signals, s < 2 ^ 256) →
        serializePublicSignalsForSoroban signals
          = toBytesBE 4 signals.length
              ++ concatBytes (signals.map (fun s => toBytesBE 32 s)))
    ∧ (∀ v : Nat, SNARK_SCALAR_FIELD ≤ v → v < 2 ^ 256 →
        SNARK_SCALAR_FIELD ≤ fromBytesBE (fieldElementToBytes v)) := by
  have hone : ∀ v : Nat, v < 2 ^ 256 →
      fieldElementToBytes v = toBytesBE 32 v
        ∧ fromBytesBE (fieldElementToBytes v) = v := by
    intro v hv
    have he : fieldElementToBytes v = toBytesBE 32 v := by
      simp only [fieldElementToBytes, hexTrunc_of_lt hv]
    refine ⟨he, ?_⟩
    rw [he]
    exact fromBytesBE_toBytesBE 32 v hv
  have hmap : ∀ signals : List Nat, (∀ s ∈ signals, s < 2 ^ 256) →
      signals.map fieldElementToBytes
        = signals.map (fun s => toBytesBE 32 s) := by
    intro signals
    induction signals with
    | nil => intro hs; simp only [List.map_nil]
    | cons s rest ih =>
      intro hs
      simp only [List.map_cons]
      rw [(hone s (hs s (by simp))).1, ih (fun x hx => hs x (by simp [hx]))]
  refine ⟨hone, ?_, ?_⟩
  · intro signals hs
    simp only [serializePublicSignalsForSoroban, hmap signals hs]
  · intro v hp hv
    have h2 := (hone v hv).2
    omega

/-- Witness for C6 amended: value 5 and the field modulus itself. -/
theorem serializers_emit_raw_value_witness :
    fieldElementToBytes 5 = toBytesBE 32 5
      ∧ fromBytesBE (fieldElementToBytes 5) = 5
      ∧ serializePublicSignalsForSoroban [5]
          = toBytesBE 4 [5].length
              ++ concatBytes ([5].map (fun s => toBytesBE 32 s))
      ∧ SNARK_SCALAR_FIELD ≤ fromBytesBE (fieldElementToBytes SNARK_SCALAR_FIELD) :=
  ⟨(serializers_emit_raw_value.1 5 (by decide)).1,
   (serializers_emit_raw_value.1 5 (by decide)).2,
   serializers_emit_raw_value.2.1 [5] (by decide),
   serializers_emit_raw_value.2.2 SNARK_SCALAR_FIELD (by decide) (by decide)⟩

/-- Lowercase hex digit character, as produced by the JS
`toString(16)` used in crypto.ts `encodeNote` (digits then `a`-`f`). -/
def hexDigitChar (n : Nat) : Char :=
  if n < 10 then Char.ofNat (48 + n) else Char.ofNat (87 + n)

/-- Hex digits of `n`, most significant first.  The first argument is
fuel; `n` itself is enough, since the recursion divides by 16 and stops
at 0. -/
def toHexAux : Nat → Nat → List Char
  | 0, _ => []
  | fuel + 1, n =>
    if n = 0 then [] else toHexAux fuel (n / 16) ++ [hexDigitChar (n % 16)]

/-- JS `toString(16)` on a bigint: lowercase hex without leading zeros,
`"0"` for 0. -/
def natToHex (n : Nat) : List Char :=
  if n = 0 then ['0'] else toHexAux n n

/-- Value of a hex digit as accepted by JS `BigInt("0x…")` and
`parseInt(s, 16)`: `0`-`9`, `a`-`f`, `A`-`F`. -/
def hexDigitVal (c : Char) : Option Nat :=
  if 48 ≤ c.toNat ∧ c.toNat ≤ 57 then some (c.toNat - 48)
  else if 97 ≤ c.toNat ∧ c.toNat ≤ 102 then some (c.toNat - 87)
  else if 65 ≤ c.toNat ∧ c.toNat ≤ 70 then some (c.toNat - 55)
  else none

/-- Decimal digit value, for `parseInt(s, 10)`. -/
def decDigitVal (c : Char) : Option Nat :=
  if 48 ≤ c.toNat ∧ c.toNat ≤ 57 then some (c.toNat - 48) else none

/-- The all-or-nothing hex parse of JS `BigInt("0x" + s)`: every
character must be a hex digit, otherwise a SyntaxError is thrown
(`none`); `BigInt("0x")` on the empty string also throws. -/
def parseHexAllAux (acc : Nat) : List Char → Option Nat
  | [] => some acc
  | c :: rest =>
    match hexDigitVal c with
    | some d => parseHexAllAux (16 * acc + d) rest
    | none => none

def parseHexAll : List Char → Option Nat
  | [] => none
  | c :: rest => parseHexAllAux 0 (c :: rest)

/-- The digit-consuming loop of JS `parseInt`: stop at the first
character that is not a digit of the radix. -/
def parseIntAux (radix : Nat) (dv : Char → Option Nat) (acc : Nat) :
    List Char → Nat
  | [] => acc
  | c :: rest =>
    match dv c with
    | some d => parseIntAux radix dv (radix * acc + d) rest
    | none => acc

/-- JS `parseInt(s, radix)` on the strings arising here: parse the
longest prefix of valid digits, `NaN` (`none`) when there is none.
(Surrounding whitespace, a sign, and the `0x` prefix for radix 16 are
not modelled; no string in this development contains them.) -/
def parseIntJS (radix : Nat) (dv : Char → Option Nat) :
    List Char → Option Nat
  | [] => none
  | c :: rest =>
    match dv c with
    | some d => some (parseIntAux radix dv d rest)
    | none => none

/-- JS `String.prototype.split("-")` (empty pieces preserved). -/
def splitDash : List Char → List (List Char)
  | [] => [[]]
  | c :: rest =>
    if c = '-' then [] :: splitDash rest
    else
      match splitDash rest with
      | [] => [[c]]
      | h :: t => (c :: h) :: t

/-- JS `Array.prototype.join("-")`. -/
def joinDash : List (List Char) → List Char
  | [] => []
  | [x] => x
  | x :: y :: t => x ++ '-' :: joinDash (y :: t)

/-- crypto.ts `DepositNote`.  `leafIndex` is a JS number; `none` models
`NaN`, which `parseInt` can produce and `toString(16)` prints as
`"NaN"`. -/
structure DepositNote where
  nullifier : Nat
  secret : Nat
  value : Nat
  label : Nat
  leafIndex : Option Nat
deriving DecidableEq

/-- JS `Number.prototype.toString(16)` for the `leafIndex` field. -/
def numToHex : Option Nat → List Char
  | some n => natToHex n
  | none => ['N', 'a', 'N']

/-- crypto.ts `encodeNote`: the parts
`opaque, 1, hex nullifier, hex secret, hex value, hex label,
hex leafIndex` joined with `-`. -/
def encodeNote (note : DepositNote) : List Char :=
  joinDash ["opaque".toList, ['1'], natToHex note.nullifier,
    natToHex note.secret, natToHex note.value, natToHex note.label,
    numToHex note.leafIndex]

/-- crypto.ts `decodeNote`: split on `-`; `Invalid note format` unless
there are exactly 7 parts headed `opaque`; parse the version with
`parseInt(parts[1], 10)` and reject any value other than 1 (a NaN
version also fails the `!== 1` check); parse the four bigint fields
with `BigInt("0x" + part)`, whose failure is a thrown SyntaxError;
`leafIndex` is `parseInt(parts[6], 16)`, which never throws and may be
NaN. -/
def decodeNote (s : List Char) : Except String DepositNote :=
  let parts := splitDash s
  if parts.length ≠ 7 ∨ parts.getD 0 [] ≠ "opaque".toList then
    .error "Invalid note format"
  else
    match parseIntJS 10 decDigitVal (parts.getD 1 []) with
    | none => .error "Unsupported note version: NaN"
    | some version =>
      if version ≠ 1 then .error "Unsupported note version"
      else
        match parseHexAll (parts.getD 2 []), parseHexAll (parts.getD 3 []),
            parseHexAll (parts.getD 4 []), parseHexAll (parts.getD 5 []) with
        | some nullifier, some secret, some value, some label =>
          .ok ⟨nullifier, secret, value, label,
            parseIntJS 16 hexDigitVal (parts.getD 6 [])⟩
        | _, _, _, _ => .error "Cannot convert note field to a BigInt"

theorem parseHexAllAux_append :
    ∀ (xs ys : List Char) (acc : Nat),
      parseHexAllAux acc (xs ++ ys)
        = (parseHexAllAux acc xs).bind (fun a => parseHexAllAux a ys)
  | [], ys, acc => by simp [parseHexAllAux]
  | c :: xs, ys, acc => by
    cases hc : hexDigitVal c with
    | none => simp [parseHexAllAux, hc]
    | some d =>
      simp only [List.cons_append, parseHexAllAux, hc]
      exact parseHexAllAux_append xs ys (16 * acc + d)

theorem hexDigitVal_hexDigitChar : ∀ m, m < 16 →
    hexDigitVal (hexDigitChar m) = some m := by decide

theorem parseHexAllAux_toHexAux :
    ∀ (fuel n acc : Nat), n ≤ fuel →
      parseHexAllAux acc (toHexAux fuel n)
        = some (acc * 16 ^ (toHexAux fuel n).length + n)
  | 0, n, acc, h => by
    have : n = 0 := by omega
    subst this
    simp [toHexAux, parseHexAllAux]
  | fuel + 1, n, acc, h => by
    by_cases h0 : n = 0
    · subst h0
      simp [toHexAux, parseHexAllAux]
    · have hdiv : n / 16 < n := Nat.div_lt_self (by omega) (by omega)
      simp only [toHexAux, if_neg h0, parseHexAllAux_append,
        parseHexAllAux_toHexAux fuel (n / 16) acc (by omega)]
      simp only [Option.some_bind]
      rw [parseHexAllAux, hexDigitVal_hexDigitChar (n % 16) (by omega)]
      simp only [parseHexAllAux, List.length_append, List.length_singleton]
      refine congrArg some ?_
      rw [pow_succ, ← mul_assoc]
      generalize acc * 16 ^ (toHexAux fuel (n / 16)).length = t
      omega

theorem parseHexAll_natToHex (n : Nat) : parseHexAll (natToHex n) = some n := by
  by_cases h0 : n = 0
  · subst h0
    decide
  · have hne : toHexAux n n ≠ [] := by
      cases n with
      | zero => exact absurd rfl h0
      | succ m => simp [toHexAux]
    rw [natToHex, if_neg h0]
    have hval := parseHexAllAux_toHexAux n n 0 le_rfl
    simp only [Nat.zero_mul, Nat.zero_add] at hval
    cases hx : toHexAux n n with
    | nil => exact absurd hx hne
    | cons c rest =>
      rw [hx] at hval
      simp only [parseHexAll]
      exact hval

theorem parseIntAux_of_parseHexAllAux :
    ∀ (s : List Char) (acc m : Nat), parseHexAllAux acc s = some m →
      parseIntAux 16 hexDigitVal acc s = m
  | [], acc, m, h => by
    simp only [parseHexAllAux, Option.some_inj] at h
    simpa [parseIntAux] using h
  | c :: rest, acc, m, h => by
    cases hc : hexDigitVal c with
    | none => simp [parseHexAllAux, hc] at h
    | some d =>
      simp only [parseHexAllAux, hc] at h
      simp only [parseIntAux, hc]
      exact parseIntAux_of_parseHexAllAux rest (16 * acc + d) m h

theorem parseIntJS_natToHex (n : Nat) :
    parseIntJS 16 hexDigitVal (natToHex n) = some n := by
  have hp := parseHexAll_natToHex n
  cases hx : natToHex n with
  | nil => rw [hx] at hp; simp [parseHexAll] at hp
  | cons c rest =>
    rw [hx] at hp
    simp only [parseHexAll] at hp
    cases hc : hexDigitVal c with
    | none => simp [parseHexAllAux, hc] at hp
    | some d =>
      simp only [parseHexAllAux, hc] at hp
      simp only [parseIntJS, hc]
      have := parseIntAux_of_parseHexAllAux rest (16 * 0 + d) n hp
      simp only [Nat.mul_zero, Nat.zero_add] at this
      exact congrArg some this

theorem hexDigitChar_ne_dash : ∀ m, m < 16 → hexDigitChar m ≠ '-' := by decide

theorem toHexAux_no_dash : ∀ (fuel n : Nat), '-' ∉ toHexAux fuel n
  | 0, n => by simp [toHexAux]
  | fuel + 1, n => by
    by_cases h0 : n = 0
    · simp [toHexAux, h0]
    · simp only [toHexAux, if_neg h0, List.mem_append, List.mem_singleton]
      rintro (h | h)
      · exact toHexAux_no_dash fuel (n / 16) h
      · exact hexDigitChar_ne_dash (n % 16) (by omega) h.symm

theorem natToHex_no_dash (n : Nat) : '-' ∉ natToHex n := by
  by_cases h0 : n = 0
  · subst h0
    decide
  · rw [natToHex, if_neg h0]
    exact toHexAux_no_dash n n

theorem numToHex_no_dash : ∀ o : Option Nat, '-' ∉ numToHex o
  | some n => natToHex_no_dash n
  | none => by decide

theorem splitDash_no_dash : ∀ xs : List Char, '-' ∉ xs → splitDash xs = [xs]
  | [], _ => rfl
  | c :: rest, h => by
    have hc : ¬(c = '-') := fun e => h (by simp [e])
    have hrest : '-' ∉ rest := fun hr => h (by simp [hr])
    simp only [splitDash, if_neg hc, splitDash_no_dash rest hrest]

theorem splitDash_append (xs ys : List Char) (h : '-' ∉ xs) :
    splitDash (xs ++ '-' :: ys) = xs :: splitDash ys := by
  induction xs with
  | nil => simp [splitDash]
  | cons c rest ih =>
    have hc : ¬(c = '-') := fun e => h (by simp [e])
    have hrest : '-' ∉ rest := fun hr => h (by simp [hr])
    simp only [List.cons_append, splitDash, if_neg hc, List.append_eq, ih hrest]

theorem splitDash_encodeNote (note : DepositNote) :
    splitDash (encodeNote note)
      = ["opaque".toList, ['1'], natToHex note.nullifier,
         natToHex note.secret, natToHex note.value, natToHex note.label,
         numToHex note.leafIndex] := by
  show splitDash ("opaque".toList ++ '-' :: (['1'] ++ '-'
      :: (natToHex note.nullifier ++ '-' :: (natToHex note.secret ++ '-'
      :: (natToHex note.value ++ '-' :: (natToHex note.label ++ '-'
      :: numToHex note.leafIndex)))))) = _
  rw [splitDash_append _ _ (by decide), splitDash_append _ _ (by decide),
    splitDash_append _ _ (natToHex_no_dash _),
    splitDash_append _ _ (natToHex_no_dash _),
    splitDash_append _ _ (natToHex_no_dash _),
    splitDash_append _ _ (natToHex_no_dash _),
    splitDash_no_dash _ (numToHex_no_dash _)]

theorem parseIntJS_numToHex (o : Option Nat) :
    parseIntJS 16 hexDigitVal (numToHex o) = o := by
  cases o with
  | some n => exact parseIntJS_natToHex n
  | none => decide

theorem decode_encode (note : DepositNote) :
    decodeNote (encodeNote note) = .ok note := by
  have h1 : parseIntJS 10 decDigitVal ['1'] = some 1 := by decide
  simp only [decodeNote, splitDash_encodeNote, List.length_cons,
    List.length_nil, List.getD_cons_zero, List.getD_cons_succ, h1,
    parseHexAll_natToHex, parseIntJS_numToHex]
  norm_num

/-- C7: encoding a `DepositNote` to the
`opaque-1-…` string and decoding it back recovers the identical note;
`encodeNote` is therefore also the identity on decoded images of
encoded strings; a string with 6 fields instead of 7 is rejected with
the `Invalid note format` error. -/
theorem note_roundtrip :
    (∀ note : DepositNote, decodeNote (encodeNote note) = .ok note)
    ∧ (∀ s : List Char, (splitDash s).length = 6 →
        decodeNote s = .error "Invalid note format")
    ∧ (∀ note note' : DepositNote,
        decodeNote (encodeNote note) = .ok note' →
        encodeNote note' = encodeNote note) := by
  refine ⟨decode_encode, ?_, ?_⟩
  · intro s h6
    simp only [decodeNote]
    rw [if_pos (Or.inl (by omega))]
  · intro note note' h
    rw [decode_encode note] at h
    cases h
    rfl

/-- Witness for C7: a concrete note round-trips, and the 6-field string
`opaque-1-a-b-c-d` is rejected. -/
theorem note_roundtrip_witness :
    decodeNote (encodeNote ⟨1, 2, 3, 4, some 5⟩) = .ok ⟨1, 2, 3, 4, some 5⟩
      ∧ decodeNote ("opaque-1-a-b-c-d".toList) = .error "Invalid note format"
      ∧ encodeNote ⟨1, 2, 3, 4, some 5⟩ = encodeNote ⟨1, 2, 3, 4, some 5⟩ :=
  ⟨note_roundtrip.1 ⟨1, 2, 3, 4, some 5⟩,
   note_roundtrip.2.1 ("opaque-1-a-b-c-d".toList) (by decide),
   note_roundtrip.2.2 ⟨1, 2, 3, 4, some 5⟩ ⟨1, 2, 3, 4, some 5⟩
     (note_roundtrip.1 ⟨1, 2, 3, 4, some 5⟩)⟩

/-- zkproof.ts `WithdrawCircuitInput` (its decimal string fields are
modelled as the numbers they denote). -/
structure WithdrawCircuitInput where
  withdrawnValue : Nat
  stateRoot : Nat
  associationRoot : Nat
  label : Nat
  value : Nat
  nullifier : Nat
  secret : Nat
  stateSiblings : List Nat
  stateIndex : Nat
  labelIndex : Nat
  labelSiblings : List Nat
deriving DecidableEq

/-- The `params` object of zkproof.ts `createWithdrawCircuitInput`. -/
structure CircuitInputParams where
  withdrawnValue : Nat
  stateRoot : Nat
  associationRoot : Nat
  label : Nat
  value : Nat
  nullifier : Nat
  secret : Nat
  stateSiblings : List Nat
  stateIndex : Nat
  labelIndex : Nat
  labelSiblings : List Nat
deriving DecidableEq

/-- zkproof.ts `createWithdrawCircuitInput`: pushes zeros onto
`stateSiblings` while shorter than 8 and then sets `length = 8`
(truncating longer lists, "e.g. if old note with 20 siblings"); pushes
zeros onto `labelSiblings` while shorter than 2, with no truncation. -/
def createWithdrawCircuitInput (p : CircuitInputParams) : WithdrawCircuitInput :=
  let stateSiblings :=
    (p.stateSiblings ++ List.replicate (8 - p.stateSiblings.length) 0).take 8
  let labelSiblings :=
    p.labelSiblings ++ List.replicate (2 - p.labelSiblings.length) 0
  ⟨p.withdrawnValue, p.stateRoot, p.associationRoot, p.label, p.value,
   p.nullifier, p.secret, stateSiblings, p.stateIndex, p.labelIndex,
   labelSiblings⟩

/-- C8 counterexample: a 10-sibling list (length ≠ 8) is consumed by
`createWithdrawCircuitInput` without any error and silently truncated
to 8 entries; a 3-sibling list is silently zero-padded; and `verifyProof`
answers a mismatched sibling count with the boolean `false`, not a
thrown error. -/
theorem depth_mismatch_not_error_cex :
    (createWithdrawCircuitInput ⟨0, 0, 0, 0, 0, 0, 0,
        [1, 2, 3, 4, 5, 6, 7, 8, 9, 10], 0, 0, []⟩).stateSiblings
      = [1, 2, 3, 4, 5, 6, 7, 8]
    ∧ (createWithdrawCircuitInput ⟨0, 0, 0, 0, 0, 0, 0,
        [1, 2, 3], 0, 0, []⟩).stateSiblings
      = [1, 2, 3, 0, 0, 0, 0, 0]
    ∧ verifyProof testHash 8 0 0 [1, 2, 3] 0 = false := by decide

/-- C8 amended: a sibling-count mismatch is never a thrown
`InvalidProofShape` error: `verifyProof` just returns `false` whenever
the count differs from the depth, and `createWithdrawCircuitInput`
silently normalises `stateSiblings` to exactly 8 entries (truncating
longer lists, zero-padding shorter ones) and zero-pads `labelSiblings`
to at least 2. -/
theorem depth_mismatch_behavior :
    (∀ (P : List Nat → Nat) (d leaf idx root : Nat) (siblings : List Nat),
        siblings.length ≠ d → verifyProof P d leaf idx siblings root = false)
    ∧ (∀ p : CircuitInputParams,
        (createWithdrawCircuitInput p).stateSiblings.length = 8)
    ∧ (∀ p : CircuitInputParams, 8 ≤ p.stateSiblings.length →
        (createWithdrawCircuitInput p).stateSiblings = p.stateSiblings.take 8)
    ∧ (∀ p : CircuitInputParams, p.stateSiblings.length ≤ 8 →
        (createWithdrawCircuitInput p).stateSiblings
          = p.stateSiblings ++ List.replicate (8 - p.stateSiblings.length) 0)
    ∧ (∀ p : CircuitInputParams,
        (createWithdrawCircuitInput p).labelSiblings
          = p.labelSiblings ++ List.replicate (2 - p.labelSiblings.length) 0) := by
  refine ⟨?_, ?_, ?_, ?_, ?_⟩
  · intro P d leaf idx root siblings h
    rw [verifyProof, if_pos h]
  · intro p
    simp only [createWithdrawCircuitInput, List.length_take,
      List.length_append, List.length_replicate]
    omega
  · intro p h
    have h0 : 8 - p.stateSiblings.length = 0 := by omega
    simp [createWithdrawCircuitInput, h0]
  · intro p h
    simp only [createWithdrawCircuitInput]
    refine List.take_of_length_le ?_
    simp only [List.length_append, List.length_replicate]
    omega
  · intro p
    rfl

/-- Witness for C8 amended at concrete sibling lists of lengths 3 and
10. -/
theorem depth_mismatch_behavior_witness :
    verifyProof testHash 8 7 0 [1, 2, 3] 0 = false
      ∧ (createWithdrawCircuitInput ⟨0, 0, 0, 0, 0, 0, 0,
          [1, 2, 3, 4, 5, 6, 7, 8, 9, 10], 0, 0, []⟩).stateSiblings
        = [1, 2, 3, 4, 5, 6, 7, 8, 9, 10].take 8
      ∧ (createWithdrawCircuitInput ⟨0, 0, 0, 0, 0, 0, 0,
          [1, 2, 3], 0, 0, []⟩).stateSiblings
        = [1, 2, 3] ++ List.replicate (8 - [1, 2, 3].length) 0 :=
  ⟨depth_mismatch_behavior.1 testHash 8 7 0 0 [1, 2, 3] (by decide),
   depth_mismatch_behavior.2.2.1 ⟨0, 0, 0, 0, 0, 0, 0,
     [1, 2, 3, 4, 5, 6, 7, 8, 9, 10], 0, 0, []⟩ (by decide),
   depth_mismatch_behavior.2.2.2.1 ⟨0, 0, 0, 0, 0, 0, 0,
     [1, 2, 3], 0, 0, []⟩ (by decide)⟩

/-- crypto.ts `bigintToBuffer`: hex padded to 64 characters, read as 32
big-endian bytes (exact for the sub-`2^256` hash and commitment values
it is applied to). -/
def bigintToBuffer (v : Nat) : List Nat := toBytesBE 32 v

/-- Outcome of the demo-mode `handleWithdraw` (first copy of
privacyPool.ts): either a caught error message, or the proof bytes and
public-signal bytes handed to the contract `withdraw` call. -/
inductive WithdrawOutcomeA where
  | err (msg : String)
  | submit (proofBytes pubSignalsBytes : List Nat)
deriving DecidableEq

/-- privacyPool.ts `handleWithdraw` (demo-mode variant, first copy of
the file), as a function of the note string and the fetched contract
state (commitment leaves and association root, network fetches modelled
as inputs).  Decode the note; require a nonempty commitment list; find
the note's commitment; build the Merkle proof; then a zero association
root is rejected outright; otherwise demo mode skips proof generation
and submits empty proof bytes plus a 36-byte signal block holding only
the nullifier hash. -/
def handleWithdrawA (P : List Nat → Nat) (noteStr : List Char)
    (commitments : List Nat) (associationRoot : Nat) : WithdrawOutcomeA :=
  match decodeNote noteStr with
  | .error e => .err e
  | .ok note =>
    if commitments.isEmpty then .err "No deposits found in contract"
    else
      let commitment :=
        computeCommitment P note.value note.label note.nullifier note.secret
      match commitments.findIdx? (fun c => c == commitment) with
      | none =>
        .err "Commitment not found in tree. Invalid note or deposit not confirmed."
      | some foundIndex =>
        match getMerklePath P TREE_DEPTH commitments foundIndex with
        | none => .err "Invalid leaf index"
        | some _siblings =>
          if associationRoot = 0 then
            .err "Association root not set. Admin must call set_association_root first."
          else
            let nullifierHash := computeNullifierHash P note.nullifier
            .submit [] (toBytesBE 4 1 ++ bigintToBuffer nullifierHash)

/-- privacyPool.ts `getMockAssociationProof`: depth-2 single-leaf tree,
root `H(H(label, zero[0]), zero[1])`, index 0, siblings
`[zero[0], zero[1]]`. -/
def getMockAssociationProof (P : List Nat → Nat) (label : Nat) :
    Nat × Nat × List Nat :=
  let z0 := zeros P 0
  let z1 := zeros P 1
  let level0Hash := poseidonHash P [label, z0]
  (poseidonHash P [level0Hash, z1], 0, [z0, z1])

/-- Outcome of the proving `handleWithdraw` (second copy of
privacyPool.ts): a caught error, or the circuit input handed to the
external snarkjs prover. -/
inductive WithdrawOutcomeB where
  | err (msg : String)
  | prove (input : WithdrawCircuitInput)
deriving DecidableEq

def isErrorB : WithdrawOutcomeB → Bool
  | .err _ => true
  | .prove _ => false

/-- privacyPool.ts `handleWithdraw` (proving variant, second copy of the
file): same steps up to the association root, but a zero association
root selects the mock association proof and the flow continues — both
branches of its `if (associationRoot === 0)` build the same mock proof
and nothing is rejected. -/
def handleWithdrawB (P : List Nat → Nat) (noteStr : List Char)
    (commitments : List Nat) (associationRoot : Nat) : WithdrawOutcomeB :=
  match decodeNote noteStr with
  | .error e => .err e
  | .ok note =>
    if commitments.isEmpty then .err "No deposits found in contract"
    else
      let commitment :=
        computeCommitment P note.value note.label note.nullifier note.secret
      match commitments.findIdx? (fun c => c == commitment) with
      | none =>
        .err "Commitment not found in tree. Invalid note or deposit not confirmed."
      | some foundIndex =>
        match getMerklePath P TREE_DEPTH commitments foundIndex with
        | none => .err "Invalid leaf index"
        | some siblings =>
          let root := computeRoot P TREE_DEPTH commitments
          let mock :=
            if associationRoot = 0 then getMockAssociationProof P note.label
            else getMockAssociationProof P note.label
          .prove (createWithdrawCircuitInput
            ⟨FIXED_AMOUNT_STROOPS, root, associationRoot, note.label,
             note.value, note.nullifier, note.secret, siblings, foundIndex,
             mock.2.1, mock.2.2⟩)

/-- C9 counterexample: a withdrawal attempt with association root 0 in
the proving `handleWithdraw` variant is not rejected: with a decodable
note whose commitment is the sole leaf, the flow reaches proof
generation instead of failing. -/
theorem zero_root_proceeds_cex :
    isErrorB (handleWithdrawB testHash
        (encodeNote ⟨1, 2, 1000000000, 3, some 0⟩)
        [computeCommitment testHash 1000000000 3 1 2] 0) = false := by
  decide

/-- C9 amended: the two `handleWithdraw` variants disagree on a zero
association root.  The demo-mode variant rejects it before any
transaction is built (it can never reach the submit step with root 0);
the proving variant does not treat zero specially at all — its
error-or-proceed behaviour with root 0 is identical to root 1, the mock
association proof being used either way. -/
theorem handleWithdraw_zero_root_policy :
    (∀ (P : List Nat → Nat) (noteStr : List Char) (commitments : List Nat)
        (pb psb : List Nat),
        handleWithdrawA P noteStr commitments 0
          ≠ WithdrawOutcomeA.submit pb psb)
    ∧ (∀ (P : List Nat → Nat) (noteStr : List Char) (commitments : List Nat),
        isErrorB (handleWithdrawB P noteStr commitments 0)
          = isErrorB (handleWithdrawB P noteStr commitments 1)) := by
  constructor
  · intro P noteStr commitments pb psb
    unfold handleWithdrawA
    simp only [show ((0 : Nat) = 0) ↔ True by simp, if_true]
    split
    · simp
    · split
      · simp
      · split
        · simp
        · split
          · simp
          · simp
  · intro P noteStr commitments
    unfold handleWithdrawB
    simp only [show ((0 : Nat) = 0) ↔ True by simp,
      show ((1 : Nat) = 0) ↔ False by simp, if_true, if_false]
    split
    · rfl
    · split
      · rfl
      · split
        · rfl
        · split
          · rfl
          · rfl

/-- privacyPool.ts `isNoteSpent`, as a function of the note string and
the `get_nullifiers` fetch: `.error` models a thrown network failure
(caught by the surrounding try/catch), `.ok none` a missing
`result.result`, `.ok (some l)` the fetched 32-byte nullifier buffers.
A caught decode or fetch error yields `false`; otherwise the
nullifier-hash buffer is searched in the fetched list. -/
def isNoteSpent (P : List Nat → Nat) (noteStr : List Char)
    (fetched : Except String (Option (List (List Nat)))) : Bool :=
  match decodeNote noteStr with
  | .error _ => false
  | .ok note =>
    let nullifierHash := poseidonHash P [note.nullifier]
    let nullifierBuffer := bigintToBuffer nullifierHash
    match fetched with
    | .error _ => false
    | .ok none => false
    | .ok (some nullifiers) => nullifiers.contains nullifierBuffer

/-- C10: `isNoteSpent` returns `true` exactly when the note decodes,
the nullifier fetch succeeds with a list, and the note's computed
nullifier-hash buffer occurs in that list; in every other case —
malformed note string, failed fetch, missing result, or absent
nullifier — it returns `false`, and no error is ever propagated (the
function is total with a boolean result). -/
theorem isNoteSpent_iff (P : List Nat → Nat) (noteStr : List Char)
    (fetched : Except String (Option (List (List Nat)))) :
    isNoteSpent P noteStr fetched = true ↔
      ∃ note nullifiers, decodeNote noteStr = .ok note
        ∧ fetched = .ok (some nullifiers)
        ∧ bigintToBuffer (poseidonHash P [note.nullifier]) ∈ nullifiers := by
  unfold isNoteSpent
  cases hdec : decodeNote noteStr with
  | error e => simp [hdec]
  | ok note =>
    cases hf : fetched with
    | error e => simp [hdec, hf]
    | ok o =>
      cases o with
      | none => simp [hdec, hf]
      | some nullifiers =>
        simp [hdec, hf, List.elem_iff]

end PoolSpec
